import Mathlib

/-!
Shallow embedding of `dxip.py` (the Telecom-IP extraction pipeline) and
verification of the specification's claims about it.

Modelling conventions:
* A parsed HTML table is modelled structurally: an optional `thead` section
  (a list of rows), an optional `tbody` section, and the remaining `tr`
  elements directly under the table.  A cell carries the flag "is a `th`
  element" and its extracted text (the result of `get_text`); text
  extraction itself belongs to the HTML parser, which is an input boundary.
  `find_all("tr")` document order is modelled as thead-rows, then
  tbody-rows, then loose rows.
* Python `float` arithmetic is modelled with exact rationals `ℚ`
  (the numeric claims are stated "under exact arithmetic").
* The two regexes of the source are compiled, by hand, into executable
  scanners.  Python's scanning strategy (leftmost match, greedy pieces,
  resume after the end of the previous match for `findall`) is reproduced;
  the greedy sub-patterns of both regexes admit no net backtracking, their
  deterministic residue is what the scanners implement.  `\w` (hence `\b`)
  is modelled ASCII-only: letters, digits, underscore.
-/

namespace Dxip

/-! ### Character classes -/

/-- Model of regex `\d` (ASCII digits). -/
def isDigitA (c : Char) : Bool := c.isDigit

/-- Model of regex `\w` (word character): letter, digit or underscore. -/
def isWordChar (c : Char) : Bool := c.isAlphanum || c = '_'

/-- Model of regex `\s` (whitespace). -/
def isSpaceA (c : Char) : Bool := c.isWhitespace

/-- Python `int(...)` on a string of decimal digits. -/
def charsToNat (l : List Char) : Nat := l.foldl (fun n c => n * 10 + (c.toNat - 48)) 0

/-! ### Substring containment (Python's `in` on strings) -/

/-- Boolean substring test over character lists, mirrors Python `pat in s`. -/
def hasInfix (pat : List Char) : List Char → Bool
  | [] => pat.isEmpty
  | c :: cs => pat.isPrefixOf (c :: cs) || hasInfix pat cs

/-- Python `pat in s` on strings. -/
def containsStr (pat s : String) : Bool := hasInfix pat.toList s.toList

/-- Python `str.lower()`, character by character (ASCII case folding). -/
def lowerStr (s : String) : String := String.mk (s.toList.map Char.toLower)

/-! ### SpeedNormalizer: `_parse_speed_to_mbps` (`dxip.py` lines 12-41)

The speed regex is `(\d+(?:\.\d+)?)\s*(GB/s|MB/s|KB/s|Gbps|Mbps|Kbps)` with
`re.IGNORECASE`, used with `re.search`.  The greedy digit runs and `\s*`
cannot profitably backtrack (each is followed by a character class disjoint
from its own), so the only real alternative is taking or dropping the
optional fractional part; `trySpeedAt` tries the fractional variant first,
exactly as the regex engine does. -/

inductive SpeedUnit where
  | gbs | mbs | kbs | gbps | mbps | kbps
deriving DecidableEq

/-- The unit alternatives in the order they appear in the pattern,
as lowercase character lists. -/
def unitPatterns : List (SpeedUnit × List Char) :=
  [(.gbs, ['g', 'b', '/', 's']), (.mbs, ['m', 'b', '/', 's']), (.kbs, ['k', 'b', '/', 's']),
   (.gbps, ['g', 'b', 'p', 's']), (.mbps, ['m', 'b', 'p', 's']), (.kbps, ['k', 'b', 'p', 's'])]

/-- Case-insensitive match of one of the unit alternatives at the head of `l`.
Returns the unit, the matched slice (original case) and the rest. -/
def matchUnitAt (l : List Char) : Option (SpeedUnit × List Char × List Char) :=
  unitPatterns.findSome? fun p =>
    if (l.take p.2.length).map Char.toLower = p.2 then
      some (p.1, l.take p.2.length, l.drop p.2.length)
    else none

/-- Attempt of the speed pattern anchored at the start of `l`.
Returns `(integer digits, fractional digits, unit, unit text as matched)`. -/
def trySpeedAt (l : List Char) : Option (List Char × List Char × SpeedUnit × List Char) :=
  let ints := l.takeWhile isDigitA
  if ints.isEmpty then none
  else
    let r1 := l.drop ints.length
    let noFrac : Option (List Char × List Char × SpeedUnit × List Char) :=
      match matchUnitAt (r1.dropWhile isSpaceA) with
      | some (u, ut, _) => some (ints, [], u, ut)
      | none => none
    match r1 with
    | '.' :: r2 =>
      let frac := r2.takeWhile isDigitA
      if frac.isEmpty then noFrac
      else
        match matchUnitAt ((r2.drop frac.length).dropWhile isSpaceA) with
        | some (u, ut, _) => some (ints, frac, u, ut)
        | none => noFrac
    | _ => noFrac

/-- `re.search` for the speed pattern: leftmost successful start position. -/
def speedSearch : List Char → Option (List Char × List Char × SpeedUnit × List Char)
  | [] => none
  | c :: cs =>
    match trySpeedAt (c :: cs) with
    | some r => some r
    | none => speedSearch cs

/-- The unit-conversion chain of `_parse_speed_to_mbps` (lines 24-37). -/
def unitFactorApply (v : ℚ) : SpeedUnit → ℚ
  | .gbs => v * 8 * 1000
  | .mbs => v * 8
  | .kbs => v * 8 / 1000
  | .gbps => v * 1000
  | .mbps => v
  | .kbps => v / 1000

/-- Exact value of Python `float(group(1))` for the matched decimal literal. -/
def decimalVal (ints frac : List Char) : ℚ :=
  (charsToNat ints : ℚ) + (charsToNat frac : ℚ) / (10 : ℚ) ^ frac.length

/-- The text of `group(1)`: integer digits, then the fraction if present. -/
def numDisplay (ints frac : List Char) : List Char :=
  ints ++ (if frac.isEmpty then [] else '.' :: frac)

/-- `_parse_speed_to_mbps` (lines 12-41): first speed expression of the text,
converted to Mbps, together with the display `group(1) ++ " " ++ group(2)`. -/
def parse_speed_to_mbps (speed_text : String) : Option (ℚ × String) :=
  match speedSearch speed_text.toList with
  | none => none
  | some (ints, frac, u, ut) =>
    some (unitFactorApply (decimalVal ints frac) u,
      String.mk (numDisplay ints frac) ++ " " ++ String.mk ut)

/-! ### The IP regex `\b(?:\d{1,3}\.){3}\d{1,3}\b` (line 55)

At a fixed start position the pattern is deterministic: each `\d{1,3}`
is a maximal digit run (backtracking to a shorter run always leaves a digit
next, which neither `\.` nor the final `\b` accepts), so a component matches
iff the maximal run has length 1-3 and is followed by the required
delimiter (a dot, resp. a non-word character or the end). -/

/-- One `\d{1,3}\.` component: digit run of length 1-3 followed by a dot.
Returns the digits and the rest after the dot. -/
def compDot (l : List Char) : Option (List Char × List Char) :=
  let d := l.takeWhile isDigitA
  if 1 ≤ d.length ∧ d.length ≤ 3 then
    match l.drop d.length with
    | '.' :: r => some (d, r)
    | _ => none
  else none

/-- The final `\d{1,3}\b` component: digit run of length 1-3 followed by
the end of input or a non-word character. -/
def compEnd (l : List Char) : Option (List Char × List Char) :=
  let d := l.takeWhile isDigitA
  if 1 ≤ d.length ∧ d.length ≤ 3 then
    match l.drop d.length with
    | [] => some (d, [])
    | c :: r => if isWordChar c then none else some (d, c :: r)
  else none

/-- Full-pattern attempt at the current position (the leading `\b` is
checked by the caller).  Returns the matched characters and the rest. -/
def matchQuadAt (l : List Char) : Option (List Char × List Char) :=
  match compDot l with
  | none => none
  | some (d1, r1) =>
    match compDot r1 with
    | none => none
    | some (d2, r2) =>
      match compDot r2 with
      | none => none
      | some (d3, r3) =>
        match compEnd r3 with
        | none => none
        | some (d4, r4) => some (d1 ++ '.' :: (d2 ++ '.' :: (d3 ++ '.' :: d4)), r4)

/-- The leading `\b` of the IP pattern: holds when there is no preceding
character or the preceding character is not a word character (the match
itself starts with a digit, a word character). -/
def boundaryBefore : Option Char → Bool
  | none => true
  | some c => !isWordChar c

/-- `findall` scan: try every position left to right, resume after the end
of each match (fuelled; `fuel > l.length` suffices). -/
def ipScan (fuel : Nat) (prev : Option Char) (l : List Char) : List (List Char) :=
  match fuel with
  | 0 => []
  | fuel + 1 =>
    match l with
    | [] => []
    | c :: cs =>
      if boundaryBefore prev then
        match matchQuadAt (c :: cs) with
        | some (m, r) => m :: ipScan fuel (some (m.getLastD c)) r
        | none => ipScan fuel (some c) cs
      else ipScan fuel (some c) cs

/-- `ip_regex.findall(s)`. -/
def ipFindAll (l : List Char) : List (List Char) := ipScan (l.length + 1) none l

/-- `ip_regex.search(s)`: the leftmost match. -/
def ipSearchFirst (l : List Char) : Option (List Char) := (ipFindAll l).head?

/-! ### Octet validation (lines 114-116 and 148-149) -/

/-- Python `str.split(".")` on a character list. -/
def splitDots : List Char → List (List Char)
  | [] => [[]]
  | c :: cs =>
    if c = '.' then [] :: splitDots cs
    else
      match splitDots cs with
      | g :: gs => (c :: g) :: gs
      | [] => [[c]]

/-- `all(0 <= int(o) <= 255 for o in ip.split("."))`; the lower bound is
vacuous over `Nat`. -/
def octetsOk (m : List Char) : Bool := (splitDots m).all fun o => charsToNat o ≤ 255

/-! ### Document model -/

/-- A table cell: whether it is a `th` element, and its extracted text. -/
structure Cell where
  isTh : Bool
  text : String
deriving DecidableEq

/-- A `tr` element: its cells (`find_all(["td", "th"])` or
`find_all(["th", "td"])` both return them in document order). -/
abbrev HRow := List Cell

/-- A `table` element: optional `thead` section, optional `tbody` section,
and `tr` elements directly under the table. -/
structure Table where
  thead : Option (List HRow)
  tbody : Option (List HRow)
  trs : List HRow
deriving DecidableEq

/-- `table.find_all("tr")`: every row of the table in document order. -/
def allTrs (t : Table) : List HRow := t.thead.getD [] ++ t.tbody.getD [] ++ t.trs

/-- Header detection (lines 59-69): first row of an explicit `thead` when it
has cells; otherwise the table's first row provided it contains a `th`. -/
def headerCells (t : Table) : Option HRow :=
  let fromThead : Option HRow :=
    match t.thead with
    | some trs =>
      match trs.head? with
      | some r => if r.isEmpty then none else some r
      | none => none
    | none => none
  match fromThead with
  | some r => some r
  | none =>
    match (allTrs t).head? with
    | some r => if r.any (·.isTh) then some r else none
    | none => none

/-- IP-column keyword rule (line 77). -/
def ipPred (t : String) : Bool := containsStr "ip" (lowerStr t) || containsStr "地址" t

/-- Provider-column keyword rule (line 80). -/
def provPred (t : String) : Bool :=
  containsStr "线路" t || containsStr "运营商" t || containsStr "isp" (lowerStr t)

/-- Speed-column keyword rule (line 83). -/
def speedPred (t : String) : Bool :=
  containsStr "速度" t || containsStr "speed" (lowerStr t)

/-- The header-classification loop (lines 71-84): one pass over the header
texts, each role set only while still unset. -/
def classifyAux (idx : Nat) (ip pv sp : Option Nat) :
    List String → Option Nat × Option Nat × Option Nat
  | [] => (ip, pv, sp)
  | t :: ts =>
    let ip' := if ip.isNone && ipPred t then some idx else ip
    let pv' := if pv.isNone && provPred t then some idx else pv
    let sp' := if sp.isNone && speedPred t then some idx else sp
    classifyAux (idx + 1) ip' pv' sp' ts

/-- `(ip_col, provider_col, speed_col)` from the header texts. -/
def classifyHeaders (hs : List String) : Option Nat × Option Nat × Option Nat :=
  classifyAux 0 none none none hs

/-- Body-row selection (lines 86-97): rows of an explicit `tbody` when
present; else all rows minus the first when a header row was consumed
(`all_trs[1:]` on an empty list is again the empty list, so the
`and all_trs` conjunct of line 94 is absorbed by `drop 1`). -/
def bodyRowsOf (t : Table) (hdr : Option HRow) : List HRow :=
  match t.tbody with
  | some trs => trs
  | none =>
    match hdr with
    | some _ => (allTrs t).drop 1
    | none => allTrs t

/-- A final record `(ip, mbps, display_speed)`. -/
structure Record where
  addr : String
  mbps : ℚ
  display : String
deriving DecidableEq

/-- `tds[i].get_text(...)`; the guard `len(tds) <= max(...)` makes every
used index in range, so the default is never read there. -/
def getCellText (tr : HRow) (i : Nat) : String := (tr.getD i ⟨false, ""⟩).text

/-- Column-mode handling of one body row (lines 101-127, without the
`seen_ips` check of lines 125-127, which is applied globally by
`dedupFold`; the emitted record does not depend on `seen_ips`).  The
`not tds` test of line 103 is absorbed by `length ≤ max` (`0 ≤ max`). -/
def rowCandidatesCol (ip_col provider_col speed_col : Nat) (tr : HRow) : List Record :=
  if tr.length ≤ max ip_col (max provider_col speed_col) then []
  else
    let provider_text := getCellText tr provider_col
    if containsStr "电信" provider_text then
      match ipSearchFirst (getCellText tr ip_col).toList with
      | none => []
      | some m =>
        if octetsOk m then
          let speed_text := getCellText tr speed_col
          match parse_speed_to_mbps speed_text with
          | some (v, d) => [⟨String.mk m, v, d⟩]
          | none => [⟨String.mk m, 0, if speed_text = "" then "未知" else speed_text⟩]
        else []
    else []

/-- `" ".join(texts)` (line 136), at the character level. -/
def joinSpace : List (List Char) → List Char
  | [] => []
  | [t] => t
  | t :: ts => t ++ ' ' :: joinSpace ts

/-- The joined row text of fallback mode. -/
def rowTextOf (tr : HRow) : String := String.mk (joinSpace (tr.map (·.text.toList)))

/-- Fallback-mode handling of one body row (lines 131-152, again without
the global `seen_ips` check of lines 150-152). -/
def rowCandidatesFb (tr : HRow) : List Record :=
  if tr.isEmpty then []
  else
    let row_text := rowTextOf tr
    if containsStr "电信" row_text then
      let vd : ℚ × String :=
        match parse_speed_to_mbps row_text with
        | some (v, d) => (v, d)
        | none => ((0 : ℚ), "未知")
      ((ipFindAll row_text.toList).filter octetsOk).map fun m => ⟨String.mk m, vd.1, vd.2⟩
    else []

/-- Per-table candidate stream (lines 57-152): header detection and
classification, then column mode when all three roles resolved, else
fallback mode over the same body rows. -/
def tableCandidates (t : Table) : List Record :=
  let hdr := headerCells t
  let cls :=
    match hdr with
    | some cells => classifyHeaders (cells.map (·.text))
    | none => ((none : Option Nat), (none : Option Nat), (none : Option Nat))
  let body := bodyRowsOf t hdr
  match cls with
  | (some ic, some pc, some sc) => body.flatMap (rowCandidatesCol ic pc sc)
  | _ => body.flatMap rowCandidatesFb

/-- The whole-document candidate stream in emission order: table order,
then row order, then within-row match order. -/
def candidates (doc : List Table) : List Record := doc.flatMap tableCandidates

/-- The `seen_ips` filter (lines 53, 125-127, 150-152): the source threads
one seen-set through the whole traversal and each append is guarded by it;
since no candidate's value reads the set, that is the same as this single
pass over the emission-ordered stream. -/
def dedupFold (seen : List String) : List Record → List Record
  | [] => []
  | r :: rs =>
    if r.addr ∈ seen then dedupFold seen rs
    else r :: dedupFold (r.addr :: seen) rs

/-- Stable insertion step for descending `mbps`: the new element goes in
front of the first element it is greater than or equal to. -/
def insertDesc (r : Record) : List Record → List Record
  | [] => [r]
  | a :: as => if a.mbps ≤ r.mbps then r :: a :: as else a :: insertDesc r as

/-- `results.sort(key=lambda x: x[1], reverse=True)` (line 154): Python's
sort is stable, and `reverse=True` reverses comparisons, not ties. -/
def sortDesc : List Record → List Record
  | [] => []
  | r :: rs => insertDesc r (sortDesc rs)

/-- `extract_telecom_ips` (lines 44-155). -/
def extract_telecom_ips (doc : List Table) : List Record :=
  sortDesc (dedupFold [] (candidates doc))

/-! ### Lemmas about the dedup pass -/

theorem mem_of_mem_dedupFold {r : Record} :
    ∀ {seen : List String} {cs : List Record}, r ∈ dedupFold seen cs → r ∈ cs := by
  intro seen cs
  induction cs generalizing seen with
  | nil => simp [dedupFold]
  | cons c cs ih =>
    intro h
    by_cases hc : c.addr ∈ seen
    · simp only [dedupFold, if_pos hc] at h
      exact List.mem_cons_of_mem _ (ih h)
    · simp only [dedupFold, if_neg hc, List.mem_cons] at h
      rcases h with h | h
      · exact h ▸ List.mem_cons_self c cs
      · exact List.mem_cons_of_mem _ (ih h)

theorem addr_not_mem_seen_of_mem_dedupFold {r : Record} :
    ∀ {seen : List String} {cs : List Record}, r ∈ dedupFold seen cs → r.addr ∉ seen := by
  intro seen cs
  induction cs generalizing seen with
  | nil => simp [dedupFold]
  | cons c cs ih =>
    intro h
    by_cases hc : c.addr ∈ seen
    · simp only [dedupFold, if_pos hc] at h
      exact ih h
    · simp only [dedupFold, if_neg hc, List.mem_cons] at h
      rcases h with h | h
      · exact h ▸ hc
      · have := ih h
        intro hr
        exact this (List.mem_cons_of_mem _ hr)

theorem dedupFold_pairwise_addr :
    ∀ (seen : List String) (cs : List Record),
      (dedupFold seen cs).Pairwise (fun a b => a.addr ≠ b.addr) := by
  intro seen cs
  induction cs generalizing seen with
  | nil => simp [dedupFold]
  | cons c cs ih =>
    by_cases hc : c.addr ∈ seen
    · simpa only [dedupFold, if_pos hc] using ih seen
    · simp only [dedupFold, if_neg hc]
      refine List.pairwise_cons.mpr ⟨?_, ih (c.addr :: seen)⟩
      intro b hb
      have := addr_not_mem_seen_of_mem_dedupFold hb
      intro hab
      exact this (hab ▸ List.mem_cons_self _ _)

theorem dedupFold_find? {r : Record} :
    ∀ {seen : List String} {cs : List Record}, r ∈ dedupFold seen cs →
      cs.find? (fun c => c.addr == r.addr) = some r := by
  intro seen cs
  induction cs generalizing seen with
  | nil => simp [dedupFold]
  | cons c cs ih =>
    intro h
    by_cases hc : c.addr ∈ seen
    · simp only [dedupFold, if_pos hc] at h
      have hne : c.addr ≠ r.addr := by
        intro he
        exact addr_not_mem_seen_of_mem_dedupFold h (he ▸ hc)
      have hb : (c.addr == r.addr) = false := by simpa using hne
      simp only [List.find?, hb]
      exact ih h
    · simp only [dedupFold, if_neg hc, List.mem_cons] at h
      rcases h with h | h
      · subst h
        simp [List.find?]
      · have hfresh : r.addr ∉ c.addr :: seen := addr_not_mem_seen_of_mem_dedupFold h
        have hne : c.addr ≠ r.addr := fun he => hfresh (he ▸ List.mem_cons_self _ _)
        have hb : (c.addr == r.addr) = false := by simpa using hne
        simp only [List.find?, hb]
        exact ih h

/-! ### Lemmas about the stable descending sort -/

theorem insertDesc_perm (r : Record) (l : List Record) :
    List.Perm (insertDesc r l) (r :: l) := by
  induction l with
  | nil => simp [insertDesc]
  | cons a as ih =>
    by_cases h : a.mbps ≤ r.mbps
    · simp [insertDesc, h]
    · simp only [insertDesc, if_neg h]
      exact (ih.cons a).trans (List.Perm.swap r a as)

theorem sortDesc_perm (l : List Record) : List.Perm (sortDesc l) l := by
  induction l with
  | nil => simp [sortDesc]
  | cons r rs ih => exact (insertDesc_perm r (sortDesc rs)).trans (ih.cons r)

theorem insertDesc_pairwise {l : List Record} (r : Record)
    (h : l.Pairwise (fun a b => b.mbps ≤ a.mbps)) :
    (insertDesc r l).Pairwise (fun a b => b.mbps ≤ a.mbps) := by
  induction l with
  | nil => simp [insertDesc]
  | cons a as ih =>
    rcases List.pairwise_cons.mp h with ⟨ha, has⟩
    by_cases hle : a.mbps ≤ r.mbps
    · simp only [insertDesc, if_pos hle]
      refine List.pairwise_cons.mpr ⟨?_, h⟩
      intro b hb
      rcases List.mem_cons.mp hb with hb | hb
      · exact hb ▸ hle
      · exact le_trans (ha b hb) hle
    · simp only [insertDesc, if_neg hle]
      refine List.pairwise_cons.mpr ⟨?_, ih has⟩
      intro b hb
      have hb' := (insertDesc_perm r as).mem_iff.mp hb
      rcases List.mem_cons.mp hb' with hb' | hb'
      · exact hb' ▸ le_of_lt (lt_of_not_ge hle)
      · exact ha b hb'

theorem sortDesc_pairwise (l : List Record) :
    (sortDesc l).Pairwise (fun a b => b.mbps ≤ a.mbps) := by
  induction l with
  | nil => simp [sortDesc]
  | cons r rs ih => exact insertDesc_pairwise r ih

theorem insertDesc_filter_key (r : Record) (l : List Record) (q : ℚ) :
    (insertDesc r l).filter (fun x => x.mbps == q) =
      if r.mbps == q then r :: l.filter (fun x => x.mbps == q)
      else l.filter (fun x => x.mbps == q) := by
  induction l with
  | nil => by_cases h : r.mbps = q <;> simp [insertDesc, h]
  | cons a as ih =>
    by_cases hle : a.mbps ≤ r.mbps
    · simp only [insertDesc, if_pos hle]
      by_cases h : r.mbps = q <;> simp [List.filter_cons, h]
    · simp only [insertDesc, if_neg hle, List.filter_cons]
      by_cases h : r.mbps = q
      · have haq : ¬(a.mbps = q) := by
          intro haq
          exact hle (le_of_eq (haq.trans h.symm))
        simp [haq, ih, h]
      · by_cases haq : a.mbps = q <;> simp [haq, ih, h]

theorem sortDesc_filter_key (l : List Record) (q : ℚ) :
    (sortDesc l).filter (fun x => x.mbps == q) = l.filter (fun x => x.mbps == q) := by
  induction l with
  | nil => simp [sortDesc]
  | cons r rs ih =>
    by_cases h : r.mbps = q
    · simp [sortDesc, insertDesc_filter_key, h, List.filter_cons, ih]
    · simp [sortDesc, insertDesc_filter_key, h, List.filter_cons, ih]

/-! ### Characterization of the header classifier -/

/-- Index of the first element satisfying `p` (the specification's
"earliest qualifying header cell"). -/
def findIdxO (p : String → Bool) : List String → Option Nat
  | [] => none
  | t :: ts => if p t then some 0 else (findIdxO p ts).map (· + 1)

theorem updateRole_or (o : Option Nat) (p : String → Bool) (t : String)
    (ts : List String) (idx : Nat) :
    (if o.isNone && p t then some idx else o).or
        ((findIdxO p ts).map (· + (idx + 1))) =
      o.or ((findIdxO p (t :: ts)).map (· + idx)) := by
  cases o with
  | some v => simp
  | none =>
    by_cases h : p t
    · simp [findIdxO, h]
    · simp only [Option.isNone_none, Bool.true_and, h, if_neg, findIdxO, if_false,
        Option.none_or, Option.map_map]
      cases findIdxO p ts with
      | none => simp
      | some i => simp [Function.comp]; omega

theorem classifyAux_spec (ts : List String) :
    ∀ (idx : Nat) (ip pv sp : Option Nat),
      classifyAux idx ip pv sp ts =
        (ip.or ((findIdxO ipPred ts).map (· + idx)),
         pv.or ((findIdxO provPred ts).map (· + idx)),
         sp.or ((findIdxO speedPred ts).map (· + idx))) := by
  induction ts with
  | nil => intro idx ip pv sp; simp [classifyAux, findIdxO]
  | cons t ts ih =>
    intro idx ip pv sp
    simp only [classifyAux]
    rw [ih]
    rw [updateRole_or ip ipPred t ts idx, updateRole_or pv provPred t ts idx,
      updateRole_or sp speedPred t ts idx]

theorem classifyHeaders_eq_findIdxO (hs : List String) :
    classifyHeaders hs =
      (findIdxO ipPred hs, findIdxO provPred hs, findIdxO speedPred hs) := by
  have h := classifyAux_spec hs 0 none none none
  simpa [classifyHeaders] using h

/-! ### Structural lemmas about the IP scanner -/

/-- Shape of a full IP-pattern match: four digit runs of length 1-3
separated by dots. -/
def quadShape (m : List Char) : Prop :=
  ∃ d1 d2 d3 d4 : List Char,
    m = d1 ++ '.' :: (d2 ++ '.' :: (d3 ++ '.' :: d4)) ∧
    ∀ d ∈ [d1, d2, d3, d4], d ≠ [] ∧ d.length ≤ 3 ∧ ∀ c ∈ d, isDigitA c = true

theorem drop_takeWhile_length (p : Char → Bool) (l : List Char) :
    l.drop (l.takeWhile p).length = l.dropWhile p := by
  induction l with
  | nil => simp
  | cons c cs ih =>
    by_cases h : p c
    · simpa [List.takeWhile_cons, List.dropWhile_cons, h] using ih
    · simp [List.takeWhile_cons, List.dropWhile_cons, h]

theorem compDot_spec {l d r : List Char} (h : compDot l = some (d, r)) :
    l = d ++ '.' :: r ∧ d ≠ [] ∧ d.length ≤ 3 ∧ ∀ c ∈ d, isDigitA c = true := by
  simp only [compDot] at h
  split at h
  · rename_i hc
    split at h
    · rename_i r' heq
      simp only [Option.some.injEq, Prod.mk.injEq] at h
      obtain ⟨hd, hr⟩ := h
      subst hd
      subst hr
      have hdw : l.dropWhile isDigitA = '.' :: r' := by
        rw [← drop_takeWhile_length isDigitA l]
        exact heq
      refine ⟨?_, ?_, hc.2, fun c hcm => List.mem_takeWhile_imp hcm⟩
      · conv_lhs => rw [← List.takeWhile_append_dropWhile isDigitA l]
        rw [hdw]
      · intro hnil
        rw [hnil] at hc
        simp at hc
    · exact absurd h (by simp)
  · exact absurd h (by simp)

theorem compEnd_spec {l d r : List Char} (h : compEnd l = some (d, r)) :
    l = d ++ r ∧ d ≠ [] ∧ d.length ≤ 3 ∧ (∀ c ∈ d, isDigitA c = true) ∧
      (∀ c, r.head? = some c → isWordChar c = false) := by
  simp only [compEnd] at h
  split at h
  · rename_i hc
    have hdw : l.dropWhile isDigitA = l.drop (l.takeWhile isDigitA).length :=
      (drop_takeWhile_length isDigitA l).symm
    have hne : l.takeWhile isDigitA ≠ [] := by
      intro hnil
      rw [hnil] at hc
      simp at hc
    split at h
    · rename_i heq
      simp only [Option.some.injEq, Prod.mk.injEq] at h
      obtain ⟨hd, hr⟩ := h
      subst hd
      subst hr
      refine ⟨?_, hne, hc.2, fun c hcm => List.mem_takeWhile_imp hcm, by simp⟩
      conv_lhs => rw [← List.takeWhile_append_dropWhile isDigitA l]
      rw [hdw, heq, List.append_nil]
    · rename_i c' r' heq
      split at h
      · exact absurd h (by simp)
      · rename_i hw
        simp only [Option.some.injEq, Prod.mk.injEq] at h
        obtain ⟨hd, hr⟩ := h
        subst hd
        subst hr
        refine ⟨?_, hne, hc.2, fun c hcm => List.mem_takeWhile_imp hcm, ?_⟩
        · conv_lhs => rw [← List.takeWhile_append_dropWhile isDigitA l]
          rw [hdw, heq]
        · intro c hc'
          simp only [List.head?] at hc'
          cases hc'
          simpa using hw
  · exact absurd h (by simp)

theorem matchQuadAt_spec {l m r : List Char} (h : matchQuadAt l = some (m, r)) :
    l = m ++ r ∧ quadShape m ∧ (∀ c, r.head? = some c → isWordChar c = false) := by
  simp only [matchQuadAt] at h
  split at h
  · exact absurd h (by simp)
  · rename_i d1 r1 h1
    split at h
    · exact absurd h (by simp)
    · rename_i d2 r2 h2
      split at h
      · exact absurd h (by simp)
      · rename_i d3 r3 h3
        split at h
        · exact absurd h (by simp)
        · rename_i d4 r4 h4
          simp only [Option.some.injEq, Prod.mk.injEq] at h
          obtain ⟨hm, hr⟩ := h
          subst hm
          subst hr
          obtain ⟨e1, n1, len1, dig1⟩ := compDot_spec h1
          obtain ⟨e2, n2, len2, dig2⟩ := compDot_spec h2
          obtain ⟨e3, n3, len3, dig3⟩ := compDot_spec h3
          obtain ⟨e4, n4, len4, dig4, hbd⟩ := compEnd_spec h4
          refine ⟨?_, ⟨d1, d2, d3, d4, rfl, ?_⟩, hbd⟩
          · rw [e1, e2, e3, e4]
            simp
          · intro d hd
            simp only [List.mem_cons, List.not_mem_nil, or_false] at hd
            rcases hd with rfl | rfl | rfl | rfl
            · exact ⟨n1, len1, dig1⟩
            · exact ⟨n2, len2, dig2⟩
            · exact ⟨n3, len3, dig3⟩
            · exact ⟨n4, len4, dig4⟩

theorem quadShape_ne_nil {m : List Char} (h : quadShape m) : m ≠ [] := by
  obtain ⟨d1, d2, d3, d4, rfl, _⟩ := h
  simp

theorem quadShape_getLast_digit {m : List Char} (h : quadShape m) :
    ∀ c, m.getLast? = some c → isDigitA c = true := by
  obtain ⟨d1, d2, d3, d4, rfl, hprops⟩ := h
  have hd4 := hprops d4 (by simp)
  intro c hc
  rw [List.getLast?_append_of_ne_nil d1 (by simp)] at hc
  have : ('.' :: (d2 ++ '.' :: (d3 ++ '.' :: d4))) = ['.'] ++ (d2 ++ '.' :: (d3 ++ '.' :: d4)) := rfl
  rw [this, List.getLast?_append_of_ne_nil _ (by simp [hd4.1])] at hc
  rw [List.getLast?_append_of_ne_nil d2 (by simp)] at hc
  have h2 : ('.' :: (d3 ++ '.' :: d4)) = ['.'] ++ (d3 ++ '.' :: d4) := rfl
  rw [h2, List.getLast?_append_of_ne_nil _ (by simp [hd4.1])] at hc
  rw [List.getLast?_append_of_ne_nil d3 (by simp)] at hc
  have h3 : ('.' :: d4) = ['.'] ++ d4 := rfl
  rw [h3, List.getLast?_append_of_ne_nil _ hd4.1] at hc
  have hmem : c ∈ d4 := by
    obtain ⟨hne4, hcl⟩ := List.mem_getLast?_eq_getLast (Option.mem_def.mpr hc)
    exact hcl ▸ List.getLast_mem hne4
  exact hd4.2.2 c hmem

theorem quadShape_getLastD_word {m : List Char} (h : quadShape m) (c : Char) :
    isWordChar (m.getLastD c) = true := by
  have hne := quadShape_ne_nil h
  cases hm : m.getLast? with
  | none => exact absurd (List.getLast?_eq_none_iff.mp hm) hne
  | some x =>
    have hx : m.getLastD c = x := by
      rw [List.getLastD_eq_getLast?, hm]
      rfl
    have hdig := quadShape_getLast_digit h x hm
    rw [hx]
    simp only [isDigitA] at hdig
    simp [isWordChar, Char.isAlphanum, hdig]

/-- Every match reported by the scanner occurs in the scanned text with
a word boundary on each side: the preceding context (or the `prev`
character when the match starts the scanned window) does not end in a word
character, and the following context does not start with one. -/
theorem ipScan_sound :
    ∀ (fuel : Nat) (prev : Option Char) (l m : List Char), m ∈ ipScan fuel prev l →
      ∃ pre post, l = pre ++ m ++ post ∧
        (pre = [] → boundaryBefore prev = true) ∧
        (∀ c, pre.getLast? = some c → isWordChar c = false) ∧
        (∀ c, post.head? = some c → isWordChar c = false) ∧
        quadShape m := by
  intro fuel
  induction fuel with
  | zero => intro prev l m h; simp [ipScan] at h
  | succ fuel ih =>
    intro prev l m h
    match l with
    | [] => simp [ipScan] at h
    | c :: cs =>
      simp only [ipScan] at h
      split at h
      · rename_i hb
        split at h
        · rename_i m0 r heq
          rcases List.mem_cons.mp h with rfl | hmem
          · obtain ⟨hdecomp, hshape, hpost⟩ := matchQuadAt_spec heq
            exact ⟨[], r, by simpa using hdecomp, fun _ => hb, by simp, hpost, hshape⟩
          · obtain ⟨pre', post', hdec, hpre0, hpreL, hpost, hshape⟩ := ih _ _ _ hmem
            obtain ⟨hd0, hshape0, _⟩ := matchQuadAt_spec heq
            have hm0ne : m0 ≠ [] := quadShape_ne_nil hshape0
            have hword := quadShape_getLastD_word hshape0 c
            have hpre' : pre' ≠ [] := by
              intro h0
              have hb' := hpre0 h0
              simp only [boundaryBefore, Bool.not_eq_true'] at hb'
              rw [hword] at hb'
              exact absurd hb' (by simp)
            refine ⟨m0 ++ pre', post', ?_, ?_, ?_, hpost, hshape⟩
            · rw [hd0, hdec]
              simp
            · intro habs
              exact absurd habs (by simp [hm0ne])
            · intro cc hcc
              rw [List.getLast?_append_of_ne_nil m0 hpre'] at hcc
              exact hpreL cc hcc
        · obtain ⟨pre', post', hdec, hpre0, hpreL, hpost, hshape⟩ := ih _ _ _ h
          refine ⟨c :: pre', post', by rw [hdec]; simp, fun habs => absurd habs (by simp),
            ?_, hpost, hshape⟩
          intro cc hcc
          cases hp : pre' with
          | nil =>
            rw [hp] at hcc
            simp only [List.getLast?_singleton, Option.some.injEq] at hcc
            have hb' := hpre0 hp
            simp only [boundaryBefore, Bool.not_eq_true'] at hb'
            exact hcc ▸ hb'
          | cons x xs =>
            rw [hp, List.getLast?_cons_cons] at hcc
            rw [hp] at hpreL
            exact hpreL cc hcc
      · rename_i hb
        obtain ⟨pre', post', hdec, hpre0, hpreL, hpost, hshape⟩ := ih _ _ _ h
        refine ⟨c :: pre', post', by rw [hdec]; simp, fun habs => absurd habs (by simp),
          ?_, hpost, hshape⟩
        intro cc hcc
        cases hp : pre' with
        | nil =>
          rw [hp] at hcc
          simp only [List.getLast?_singleton, Option.some.injEq] at hcc
          have hb' := hpre0 hp
          simp only [boundaryBefore, Bool.not_eq_true'] at hb'
          exact hcc ▸ hb'
        | cons x xs =>
          rw [hp, List.getLast?_cons_cons] at hcc
          rw [hp] at hpreL
          exact hpreL cc hcc

/-- Every match of `findall` has the quad shape. -/
theorem mem_ipFindAll_quadShape {l m : List Char} (h : m ∈ ipFindAll l) : quadShape m := by
  obtain ⟨_, _, _, _, _, _, hshape⟩ := ipScan_sound _ _ _ _ h
  exact hshape

/-- The result of `search` is a match of `findall`. -/
theorem ipSearchFirst_mem {l m : List Char} (h : ipSearchFirst l = some m) : m ∈ ipFindAll l := by
  simp only [ipSearchFirst] at h
  cases hfa : ipFindAll l with
  | nil =>
    rw [hfa] at h
    simp at h
  | cons a t =>
    rw [hfa] at h
    simp only [List.head?_cons, Option.some.injEq] at h
    subst h
    exact List.mem_cons_self a t

/-! ### Splitting a match on dots -/

theorem splitDots_append_no_dot {d r : List Char} (hd : ∀ c ∈ d, c ≠ '.') :
    splitDots (d ++ '.' :: r) = d :: splitDots r := by
  induction d with
  | nil => simp [splitDots]
  | cons c cs ih =>
    have hc : c ≠ '.' := hd c (List.mem_cons_self c cs)
    simp only [List.cons_append, splitDots, if_neg hc]
    rw [List.append_eq, ih (fun x hx => hd x (List.mem_cons_of_mem c hx))]

theorem splitDots_no_dot {d : List Char} (hd : ∀ c ∈ d, c ≠ '.') : splitDots d = [d] := by
  induction d with
  | nil => rfl
  | cons c cs ih =>
    have hc : c ≠ '.' := hd c (List.mem_cons_self c cs)
    simp only [splitDots, if_neg hc]
    rw [ih (fun x hx => hd x (List.mem_cons_of_mem c hx))]

theorem quadShape_splitDots {m : List Char} (h : quadShape m) :
    ∃ d1 d2 d3 d4 : List Char, splitDots m = [d1, d2, d3, d4] ∧
      ∀ d ∈ [d1, d2, d3, d4], d ≠ [] ∧ d.length ≤ 3 ∧ ∀ c ∈ d, isDigitA c = true := by
  obtain ⟨d1, d2, d3, d4, rfl, hp⟩ := h
  have nd : ∀ d ∈ [d1, d2, d3, d4], ∀ c ∈ d, c ≠ '.' := by
    intro d hd c hc he
    have hdig := (hp d hd).2.2 c hc
    rw [he] at hdig
    exact absurd hdig (by decide)
  refine ⟨d1, d2, d3, d4, ?_, hp⟩
  rw [splitDots_append_no_dot (nd d1 (by simp)), splitDots_append_no_dot (nd d2 (by simp)),
    splitDots_append_no_dot (nd d3 (by simp)), splitDots_no_dot (nd d4 (by simp))]

/-! ### Substring containment and the space-joined row text -/

theorem hasInfix_spec {pat l : List Char} : hasInfix pat l = true ↔ pat <:+: l := by
  induction l with
  | nil =>
    simp only [hasInfix, List.isEmpty_iff, List.infix_nil]
  | cons c cs ih =>
    simp only [hasInfix, Bool.or_eq_true, List.isPrefixOf_iff_prefix, ih, List.infix_cons_iff]

/-- A two-character pattern free of the separator that occurs in the
space-joined list occurs inside one of the joined pieces. -/
theorem infix_pair_joinSpace {c1 c2 : Char} (h1 : c1 ≠ ' ') (h2 : c2 ≠ ' ') :
    ∀ ts : List (List Char), [c1, c2] <:+: joinSpace ts → ∃ t ∈ ts, [c1, c2] <:+: t := by
  intro ts
  induction ts with
  | nil =>
    intro h
    simp [joinSpace] at h
  | cons t ts ih =>
    cases ts with
    | nil =>
      intro h
      exact ⟨t, by simp, by simpa [joinSpace] using h⟩
    | cons t2 ts2 =>
      intro h
      rw [show joinSpace (t :: t2 :: ts2) = t ++ ' ' :: joinSpace (t2 :: ts2) from rfl] at h
      obtain ⟨s, u, hsu⟩ := h
      rw [List.append_assoc] at hsu
      rcases List.append_eq_append_iff.mp hsu with ⟨a, ha, hb⟩ | ⟨a, ha, hb⟩
      · cases a with
        | nil =>
          simp only [List.cons_append, List.nil_append, List.cons.injEq] at hb
          exact absurd hb.1 h1
        | cons x xs =>
          cases xs with
          | nil =>
            simp only [List.cons_append, List.nil_append, List.singleton_append,
              List.cons.injEq] at hb
            exact absurd hb.2.1 h2
          | cons y ys =>
            simp only [List.cons_append, List.nil_append, List.cons.injEq] at hb
            obtain ⟨hx, hy, _⟩ := hb
            refine ⟨t, List.mem_cons_self t _, s, ys, ?_⟩
            rw [ha, ← hx, ← hy]
            simp
      · cases a with
        | nil =>
          simp only [List.cons_append, List.nil_append, List.cons.injEq] at hb
          exact absurd hb.1.symm h1
        | cons x xs =>
          simp only [List.cons_append, List.cons.injEq] at hb
          have hinf : [c1, c2] <:+: joinSpace (t2 :: ts2) := by
            refine ⟨xs, u, ?_⟩
            rw [hb.2]
            simp
          obtain ⟨t', ht', hti⟩ := ih hinf
          exact ⟨t', List.mem_cons_of_mem t ht', hti⟩

/-! ### Soundness of the emitted addresses -/

/-- An address as it is stored in a record: a scanner match of quad shape
that passed the octet filter. -/
def goodAddr (s : String) : Prop :=
  ∃ m : List Char, s = String.mk m ∧ octetsOk m = true ∧ quadShape m

theorem rowCandidatesCol_goodAddr {ic pc sc : Nat} {tr : HRow} {r : Record}
    (h : r ∈ rowCandidatesCol ic pc sc tr) : goodAddr r.addr := by
  simp only [rowCandidatesCol] at h
  split at h
  · simp at h
  · split at h
    · split at h
      · simp at h
      · rename_i m hsearch
        have hshape : quadShape m := mem_ipFindAll_quadShape (ipSearchFirst_mem hsearch)
        split at h
        · split at h
          · rename_i v d hp
            simp only [List.mem_singleton] at h
            subst h
            exact ⟨m, rfl, by assumption, hshape⟩
          · rename_i hp
            simp only [List.mem_singleton] at h
            subst h
            exact ⟨m, rfl, by assumption, hshape⟩
        · simp at h
    · simp at h

theorem rowCandidatesFb_goodAddr {tr : HRow} {r : Record}
    (h : r ∈ rowCandidatesFb tr) : goodAddr r.addr := by
  simp only [rowCandidatesFb] at h
  split at h
  · simp at h
  · split at h
    · simp only [List.mem_map, List.mem_filter] at h
      obtain ⟨m, ⟨hmem, hoct⟩, rfl⟩ := h
      exact ⟨m, rfl, hoct, mem_ipFindAll_quadShape hmem⟩
    · simp at h

theorem candidates_goodAddr {doc : List Table} {r : Record}
    (h : r ∈ candidates doc) : goodAddr r.addr := by
  simp only [candidates, List.mem_flatMap] at h
  obtain ⟨t, _, ht⟩ := h
  simp only [tableCandidates] at ht
  split at ht
  · rename_i ic pc sc heq
    simp only [List.mem_flatMap] at ht
    obtain ⟨tr, _, hr⟩ := ht
    exact rowCandidatesCol_goodAddr hr
  · simp only [List.mem_flatMap] at ht
    obtain ⟨tr, _, hr⟩ := ht
    exact rowCandidatesFb_goodAddr hr

theorem extract_goodAddr {doc : List Table} {r : Record}
    (h : r ∈ extract_telecom_ips doc) : goodAddr r.addr := by
  simp only [extract_telecom_ips] at h
  have h1 := (sortDesc_perm (dedupFold [] (candidates doc))).mem_iff.mp h
  exact candidates_goodAddr (mem_of_mem_dedupFold h1)

/-- The claim-side reading of "valid dotted quad": splitting the address on
dots yields exactly four components, each a non-empty run of at most three
digits whose value is at most 255. -/
def quadOk (s : String) : Prop :=
  (splitDots s.toList).length = 4 ∧
    ∀ o ∈ splitDots s.toList, o ≠ [] ∧ o.length ≤ 3 ∧
      (∀ c ∈ o, isDigitA c = true) ∧ charsToNat o ≤ 255

/-! ### Row-level behaviour lemmas -/

theorem rowCandidatesCol_parse_none {ic pc sc : Nat} {tr : HRow} {r : Record}
    (h : r ∈ rowCandidatesCol ic pc sc tr)
    (hp : parse_speed_to_mbps (getCellText tr sc) = none) :
    r.mbps = 0 ∧ r.display = (if getCellText tr sc = "" then "未知" else getCellText tr sc) := by
  simp only [rowCandidatesCol] at h
  split at h
  · simp at h
  · split at h
    · split at h
      · simp at h
      · split at h
        · split at h
          · rename_i hps
            rw [hp] at hps
            exact absurd hps (by simp)
          · simp only [List.mem_singleton] at h
            subst h
            exact ⟨rfl, rfl⟩
        · simp at h
    · simp at h

theorem rowCandidatesFb_parse_none {tr : HRow} {r : Record}
    (h : r ∈ rowCandidatesFb tr) (hp : parse_speed_to_mbps (rowTextOf tr) = none) :
    r.mbps = 0 ∧ r.display = "未知" := by
  simp only [rowCandidatesFb, hp] at h
  split at h
  · simp at h
  · split at h
    · obtain ⟨m, _, rfl⟩ := List.mem_map.mp h
      exact ⟨rfl, rfl⟩
    · simp at h

theorem rowCandidatesCol_no_marker {ic pc sc : Nat} {tr : HRow}
    (h : ∀ cell ∈ tr, containsStr "电信" cell.text = false) :
    rowCandidatesCol ic pc sc tr = [] := by
  simp only [rowCandidatesCol]
  split
  · rfl
  · rename_i hlen
    have hpc : pc < tr.length :=
      lt_of_le_of_lt (le_trans (Nat.le_max_left pc sc) (Nat.le_max_right ic (max pc sc)))
        (Nat.lt_of_not_le hlen)
    have hfalse := h _ (List.getElem_mem hpc)
    simp [getCellText, List.getElem?_eq_getElem hpc, hfalse]

theorem rowCandidatesFb_no_marker {tr : HRow}
    (h : ∀ cell ∈ tr, containsStr "电信" cell.text = false) :
    rowCandidatesFb tr = [] := by
  simp only [rowCandidatesFb]
  split
  · rfl
  · have hfalse : containsStr "电信" (rowTextOf tr) = false := by
      by_contra hx
      rw [Bool.not_eq_false] at hx
      have hml : ("电信".toList : List Char) = ['电', '信'] := by decide
      simp only [containsStr, hml] at hx
      have hjoin : (rowTextOf tr).toList = joinSpace (tr.map (fun c => c.text.toList)) := rfl
      rw [hjoin] at hx
      obtain ⟨t, ht, hti⟩ :=
        infix_pair_joinSpace (by decide) (by decide) _ (hasInfix_spec.mp hx)
      obtain ⟨cell, hcell, rfl⟩ := List.mem_map.mp ht
      have hcf := h cell hcell
      simp only [containsStr, hml] at hcf
      rw [hasInfix_spec.mpr hti] at hcf
      exact absurd hcf (by simp)
    simp [hfalse]

/-- Modelled from the claim's wording "proceeds to the provider/address/speed
extraction steps": the column-mode row handling with the width guard removed,
used to compare against `rowCandidatesCol`. -/
def rowColSteps (ip_col provider_col speed_col : Nat) (tr : HRow) : List Record :=
  let provider_text := getCellText tr provider_col
  if containsStr "电信" provider_text then
    match ipSearchFirst (getCellText tr ip_col).toList with
    | none => []
    | some m =>
      if octetsOk m then
        let speed_text := getCellText tr speed_col
        match parse_speed_to_mbps speed_text with
        | some (v, d) => [⟨String.mk m, v, d⟩]
        | none => [⟨String.mk m, 0, if speed_text = "" then "未知" else speed_text⟩]
      else []
  else []

theorem rowCandidatesCol_width_split (ic pc sc : Nat) (tr : HRow) :
    rowCandidatesCol ic pc sc tr =
      if tr.length ≤ max ic (max pc sc) then [] else rowColSteps ic pc sc tr := by
  by_cases h : tr.length ≤ max ic (max pc sc)
  · simp [rowCandidatesCol, rowColSteps, h]
  · simp [rowCandidatesCol, rowColSteps, h]

theorem goodAddr_quadOk {s : String} (h : goodAddr s) : quadOk s := by
  obtain ⟨m, rfl, hoct, hshape⟩ := h
  obtain ⟨d1, d2, d3, d4, hsplit, hp⟩ := quadShape_splitDots hshape
  have htl : (String.mk m).toList = m := rfl
  constructor
  · rw [htl, hsplit]
    rfl
  · intro o ho
    rw [htl, hsplit] at ho
    have hbound : charsToNat o ≤ 255 := by
      have := List.all_eq_true.mp hoct o (by rw [hsplit]; exact ho)
      simpa using this
    obtain ⟨hne, hlen, hdig⟩ := hp o ho
    exact ⟨hne, hlen, hdig, hbound⟩

/-! ### Header promotion and body-row selection -/

theorem headerCells_promoted {t : Table} {r : HRow} {rs : List HRow}
    (hth : t.thead = none) (hall : allTrs t = r :: rs) (hh : r.any (·.isTh) = true) :
    headerCells t = some r ∧
    (t.tbody = none → bodyRowsOf t (headerCells t) = rs) ∧
    (∀ trs, t.tbody = some trs → bodyRowsOf t (headerCells t) = trs) := by
  have hhc : headerCells t = some r := by
    simp only [headerCells, hth]
    rw [hall]
    simp [hh]
  refine ⟨hhc, ?_, ?_⟩
  · intro htb
    rw [hhc]
    simp only [bodyRowsOf, htb, hall]
    rfl
  · intro trs htb
    rw [hhc]
    simp [bodyRowsOf, htb]

/-! ### Evaluation helper for the speed parser -/

theorem parse_speed_eval {s : String} {ints frac : List Char} {u : SpeedUnit} {ut : List Char}
    {v : ℚ} {d : String}
    (h : speedSearch s.toList = some (ints, frac, u, ut))
    (hv : unitFactorApply (decimalVal ints frac) u = v)
    (hd : String.mk (numDisplay ints frac) ++ " " ++ String.mk ut = d) :
    parse_speed_to_mbps s = some (v, d) := by
  simp only [parse_speed_to_mbps, h]
  rw [hv, hd]

/-! ### The claims -/

/-- C1: across a full run, the addresses of the records in the result are
pairwise distinct, and each record is the first candidate with its address
in emission order (table order, then row order, then within-row match
order), so later duplicates are dropped regardless of their speed. -/
theorem claim_C1_dedup_first_wins (doc : List Table) :
    (extract_telecom_ips doc).Pairwise (fun a b => a.addr ≠ b.addr) ∧
    ∀ r ∈ extract_telecom_ips doc,
      (candidates doc).find? (fun c => c.addr == r.addr) = some r := by
  constructor
  · exact (List.Perm.pairwise_iff (fun h => Ne.symm h) (sortDesc_perm _)).mpr
      (dedupFold_pairwise_addr [] _)
  · intro r hr
    exact dedupFold_find? ((sortDesc_perm _).mem_iff.mp hr)

def docW1 : List Table :=
  [⟨some [[⟨true, "IP"⟩, ⟨true, "线路"⟩, ⟨true, "速度"⟩]], none,
    [[⟨false, "1.2.3.4"⟩, ⟨false, "电信"⟩, ⟨false, "fastA"⟩],
     [⟨false, "1.2.3.4"⟩, ⟨false, "电信"⟩, ⟨false, "fastB"⟩]]⟩]

/-- Witness for C1: in a document whose two qualifying rows carry the same
address, the record kept is the first row's. -/
theorem claim_C1_dedup_first_wins_witness :
    (candidates docW1).find?
        (fun c => c.addr == (⟨"1.2.3.4", 0, "fastA"⟩ : Record).addr) =
      some ⟨"1.2.3.4", 0, "fastA"⟩ :=
  (claim_C1_dedup_first_wins docW1).2 ⟨"1.2.3.4", 0, "fastA"⟩ (by decide)

/-- C2: the final list is stably sorted by `mbps` descending: it is
pairwise non-increasing on `mbps`, and for every value `q` the records with
`mbps = q` appear exactly as they do in the deduplicated emission-order
stream. -/
theorem claim_C2_stable_sort_desc (doc : List Table) :
    (extract_telecom_ips doc).Pairwise (fun a b => b.mbps ≤ a.mbps) ∧
    ∀ q : ℚ, (extract_telecom_ips doc).filter (fun x => x.mbps == q) =
      (dedupFold [] (candidates doc)).filter (fun x => x.mbps == q) := by
  constructor
  · simp only [extract_telecom_ips]
    exact sortDesc_pairwise _
  · intro q
    simp only [extract_telecom_ips]
    exact sortDesc_filter_key _ q

/-- C3: the speed normalizer converts the first matched quantity+unit
expression with exactly the fixed factors GB/s ×8000, MB/s ×8, KB/s ×0.008,
Gbps ×1000, Mbps ×1, Kbps ×0.001, case-insensitively; in particular the
spec's four examples hold under exact arithmetic. -/
theorem claim_C3_unit_conversion :
    parse_speed_to_mbps "12.3 MB/s" = some (492 / 5, "12.3 MB/s") ∧
    parse_speed_to_mbps "1 GB/s" = some (8000, "1 GB/s") ∧
    parse_speed_to_mbps "900 Kbps" = some (9 / 10, "900 Kbps") ∧
    parse_speed_to_mbps "500 Mbps" = some (500, "500 Mbps") ∧
    parse_speed_to_mbps "1.5 Gbps" = some (1500, "1.5 Gbps") ∧
    parse_speed_to_mbps "850 KB/s" = some (34 / 5, "850 KB/s") ∧
    parse_speed_to_mbps "12.3 mb/S" = some (492 / 5, "12.3 mb/S") ∧
    parse_speed_to_mbps "900 KBPS" = some (9 / 10, "900 KBPS") ∧
    ∀ v : ℚ, unitFactorApply v .gbs = v * 8000 ∧ unitFactorApply v .mbs = v * 8 ∧
      unitFactorApply v .kbs = v * (8 / 1000) ∧ unitFactorApply v .gbps = v * 1000 ∧
      unitFactorApply v .mbps = v * 1 ∧ unitFactorApply v .kbps = v * (1 / 1000) := by
  refine ⟨?_, ?_, ?_, ?_, ?_, ?_, ?_, ?_, ?_⟩
  · have h : speedSearch "12.3 MB/s".toList =
        some (['1', '2'], ['3'], SpeedUnit.mbs, ['M', 'B', '/', 's']) := by decide
    refine parse_speed_eval h ?_ (by decide)
    have h1 : charsToNat ['1', '2'] = 12 := by decide
    have h2 : charsToNat ['3'] = 3 := by decide
    simp [unitFactorApply, decimalVal, h1, h2]
    norm_num
  · have h : speedSearch "1 GB/s".toList =
        some (['1'], [], SpeedUnit.gbs, ['G', 'B', '/', 's']) := by decide
    refine parse_speed_eval h ?_ (by decide)
    have h1 : charsToNat ['1'] = 1 := by decide
    have h2 : charsToNat [] = 0 := by decide
    simp [unitFactorApply, decimalVal, h1, h2]
    norm_num
  · have h : speedSearch "900 Kbps".toList =
        some (['9', '0', '0'], [], SpeedUnit.kbps, ['K', 'b', 'p', 's']) := by decide
    refine parse_speed_eval h ?_ (by decide)
    have h1 : charsToNat ['9', '0', '0'] = 900 := by decide
    have h2 : charsToNat [] = 0 := by decide
    simp [unitFactorApply, decimalVal, h1, h2]
    norm_num
  · have h : speedSearch "500 Mbps".toList =
        some (['5', '0', '0'], [], SpeedUnit.mbps, ['M', 'b', 'p', 's']) := by decide
    refine parse_speed_eval h ?_ (by decide)
    have h1 : charsToNat ['5', '0', '0'] = 500 := by decide
    have h2 : charsToNat [] = 0 := by decide
    simp [unitFactorApply, decimalVal, h1, h2]
  · have h : speedSearch "1.5 Gbps".toList =
        some (['1'], ['5'], SpeedUnit.gbps, ['G', 'b', 'p', 's']) := by decide
    refine parse_speed_eval h ?_ (by decide)
    have h1 : charsToNat ['1'] = 1 := by decide
    have h2 : charsToNat ['5'] = 5 := by decide
    simp [unitFactorApply, decimalVal, h1, h2]
    norm_num
  · have h : speedSearch "850 KB/s".toList =
        some (['8', '5', '0'], [], SpeedUnit.kbs, ['K', 'B', '/', 's']) := by decide
    refine parse_speed_eval h ?_ (by decide)
    have h1 : charsToNat ['8', '5', '0'] = 850 := by decide
    have h2 : charsToNat [] = 0 := by decide
    simp [unitFactorApply, decimalVal, h1, h2]
    norm_num
  · have h : speedSearch "12.3 mb/S".toList =
        some (['1', '2'], ['3'], SpeedUnit.mbs, ['m', 'b', '/', 'S']) := by decide
    refine parse_speed_eval h ?_ (by decide)
    have h1 : charsToNat ['1', '2'] = 12 := by decide
    have h2 : charsToNat ['3'] = 3 := by decide
    simp [unitFactorApply, decimalVal, h1, h2]
    norm_num
  · have h : speedSearch "900 KBPS".toList =
        some (['9', '0', '0'], [], SpeedUnit.kbps, ['K', 'B', 'P', 'S']) := by decide
    refine parse_speed_eval h ?_ (by decide)
    have h1 : charsToNat ['9', '0', '0'] = 900 := by decide
    have h2 : charsToNat [] = 0 := by decide
    simp [unitFactorApply, decimalVal, h1, h2]
    norm_num
  · intro v
    refine ⟨?_, ?_, ?_, ?_, ?_, ?_⟩ <;> simp [unitFactorApply] <;> ring

def docC4 : List Table :=
  [⟨some [[⟨true, "IP"⟩, ⟨true, "线路"⟩, ⟨true, "速度"⟩]], none,
    [[⟨false, "1.2.3.4"⟩, ⟨false, "电信"⟩, ⟨false, "fast"⟩]]⟩]

/-- Counterexample to C4: in column mode, a qualifying row whose speed cell
text "fast" contains no recognizable speed expression produces a record
whose display is the raw cell text, not the fixed unknown sentinel. -/
theorem claim_C4_counterexample :
    parse_speed_to_mbps "fast" = none ∧
    extract_telecom_ips docC4 = [⟨"1.2.3.4", 0, "fast"⟩] ∧
    ("fast" : String) ≠ "未知" :=
  ⟨by decide, by decide, by decide⟩

/-- C4 as amended: when no speed expression is recognized, `mbps` is `0`;
in fallback mode the display is always the sentinel `未知`, while in column
mode the sentinel is used only when the speed cell text is empty, and
otherwise the display is the raw speed cell text. -/
theorem claim_C4_unknown_speed :
    (∀ (ic pc sc : Nat) (tr : HRow) (r : Record), r ∈ rowCandidatesCol ic pc sc tr →
      parse_speed_to_mbps (getCellText tr sc) = none →
      r.mbps = 0 ∧
        r.display = (if getCellText tr sc = "" then "未知" else getCellText tr sc)) ∧
    (∀ (tr : HRow) (r : Record), r ∈ rowCandidatesFb tr →
      parse_speed_to_mbps (rowTextOf tr) = none → r.mbps = 0 ∧ r.display = "未知") :=
  ⟨fun _ _ _ _ _ h hp => rowCandidatesCol_parse_none h hp,
   fun _ _ h hp => rowCandidatesFb_parse_none h hp⟩

/-- Witness for the amended C4 at concrete rows of both modes. -/
theorem claim_C4_unknown_speed_witness :
    ((⟨"1.2.3.4", 0, "fast"⟩ : Record).mbps = 0 ∧
      (⟨"1.2.3.4", 0, "fast"⟩ : Record).display =
        (if getCellText [⟨false, "1.2.3.4"⟩, ⟨false, "电信"⟩, ⟨false, "fast"⟩] 2 = ""
          then "未知"
          else getCellText [⟨false, "1.2.3.4"⟩, ⟨false, "电信"⟩, ⟨false, "fast"⟩] 2)) ∧
    ((⟨"5.6.7.8", 0, "未知"⟩ : Record).mbps = 0 ∧
      (⟨"5.6.7.8", 0, "未知"⟩ : Record).display = "未知") :=
  ⟨claim_C4_unknown_speed.1 0 1 2 [⟨false, "1.2.3.4"⟩, ⟨false, "电信"⟩, ⟨false, "fast"⟩]
      ⟨"1.2.3.4", 0, "fast"⟩ (by decide) (by decide),
   claim_C4_unknown_speed.2 [⟨false, "电信 5.6.7.8"⟩] ⟨"5.6.7.8", 0, "未知"⟩
      (by decide) (by decide)⟩

/-- C5: every record of every run has an address that splits on dots into
exactly four components, each a non-empty run of at most three digits whose
integer value is in [0, 255]; out-of-range quads are skipped, and the
extraction is a total function. -/
theorem claim_C5_addresses_valid :
    ∀ (doc : List Table), ∀ r ∈ extract_telecom_ips doc, quadOk r.addr :=
  fun _ _ hr => goodAddr_quadOk (extract_goodAddr hr)

def docW5 : List Table := [⟨none, none, [[⟨false, "电信 10.20.30.40"⟩]]⟩]

/-- Witness for C5 at a concrete document. -/
theorem claim_C5_addresses_valid_witness :
    quadOk (⟨"10.20.30.40", 0, "未知"⟩ : Record).addr :=
  claim_C5_addresses_valid docW5 ⟨"10.20.30.40", 0, "未知"⟩ (by decide)

/-- C6: a body row none of whose cell texts contains the provider marker
`电信` contributes no candidate, in column mode or in fallback mode, even
when it contains a syntactically valid quad. -/
theorem claim_C6_provider_exclusion :
    (∀ (ic pc sc : Nat) (tr : HRow), (∀ cell ∈ tr, containsStr "电信" cell.text = false) →
      rowCandidatesCol ic pc sc tr = []) ∧
    (∀ tr : HRow, (∀ cell ∈ tr, containsStr "电信" cell.text = false) →
      rowCandidatesFb tr = []) :=
  ⟨fun _ _ _ _ h => rowCandidatesCol_no_marker h, fun _ h => rowCandidatesFb_no_marker h⟩

/-- Witness for C6: a marker-free row with a valid quad yields nothing in
either mode. -/
theorem claim_C6_provider_exclusion_witness :
    rowCandidatesCol 0 1 2 [⟨false, "9.9.9.9"⟩, ⟨false, "联通"⟩, ⟨false, "500 Mbps"⟩] = [] ∧
    rowCandidatesFb [⟨false, "9.9.9.9"⟩, ⟨false, "联通"⟩, ⟨false, "500 Mbps"⟩] = [] :=
  ⟨claim_C6_provider_exclusion.1 0 1 2 _ (by decide),
   claim_C6_provider_exclusion.2 _ (by decide)⟩

/-- Counterexample to C7: the header cell "ip线路" satisfies both the
address rule and the provider rule, so both roles are assigned the same
column index 0, refuting the distinctness clause. -/
theorem claim_C7_counterexample :
    (classifyHeaders ["ip线路"]).1 = some 0 ∧ (classifyHeaders ["ip线路"]).2.1 = some 0 := by
  decide

/-- C7 as amended: each role is assigned at most once, to the earliest
header cell satisfying its keyword rule, and is never reassigned — but two
resolved roles may share a column index when one cell satisfies several
rules. -/
theorem claim_C7_roles_earliest :
    ∀ hs : List String,
      classifyHeaders hs = (findIdxO ipPred hs, findIdxO provPred hs, findIdxO speedPred hs) :=
  classifyHeaders_eq_findIdxO

/-- Counterexample to C8: with roles at columns 0, 1, 2 a row of exactly 2
cells (the highest resolved index) is skipped, although the same cells
extended by an empty third cell pass every later check. -/
theorem claim_C8_counterexample :
    rowCandidatesCol 0 1 2 [⟨false, "1.2.3.4"⟩, ⟨false, "电信"⟩] = [] ∧
    rowCandidatesCol 0 1 2 [⟨false, "1.2.3.4"⟩, ⟨false, "电信"⟩, ⟨false, ""⟩] =
      [⟨"1.2.3.4", 0, "未知"⟩] :=
  ⟨by decide, by decide⟩

/-- C8 as amended: a body row is skipped on account of its width exactly
when it has at most as many cells as the highest resolved column index;
with strictly more cells it proceeds to the provider/address/speed
extraction steps. -/
theorem claim_C8_width_guard (ic pc sc : Nat) (tr : HRow) :
    (tr.length ≤ max ic (max pc sc) → rowCandidatesCol ic pc sc tr = []) ∧
    (max ic (max pc sc) < tr.length →
      rowCandidatesCol ic pc sc tr = rowColSteps ic pc sc tr) := by
  constructor
  · intro h
    rw [rowCandidatesCol_width_split, if_pos h]
  · intro h
    rw [rowCandidatesCol_width_split, if_neg (Nat.not_le_of_lt h)]

/-- Witness for the amended C8 at concrete rows. -/
theorem claim_C8_width_guard_witness :
    rowCandidatesCol 0 1 2 [⟨false, "x"⟩, ⟨false, "y"⟩] = [] ∧
    rowCandidatesCol 0 0 0 [⟨false, "x"⟩] = rowColSteps 0 0 0 [⟨false, "x"⟩] :=
  ⟨(claim_C8_width_guard 0 1 2 [⟨false, "x"⟩, ⟨false, "y"⟩]).1 (by decide),
   (claim_C8_width_guard 0 0 0 [⟨false, "x"⟩]).2 (by decide)⟩

def tC9 : Table := ⟨none, some [[⟨true, "电信 1.2.3.4"⟩]], []⟩

/-- Counterexample to C9: a table with no `thead` whose `tbody` first row
contains a `th` promotes that row to header, yet the row stays among the
body rows (the body is the `tbody` rows) and yields a record. -/
theorem claim_C9_counterexample :
    headerCells tC9 = some [⟨true, "电信 1.2.3.4"⟩] ∧
    extract_telecom_ips [tC9] = [⟨"1.2.3.4", 0, "未知"⟩] :=
  ⟨by decide, by decide⟩

/-- C9 as amended: with no explicit header section, a first row containing
a header-style cell is used as the header for classification; it is
excluded from the body rows only when the table also has no explicit body
section — when a `tbody` exists, the body rows are exactly the `tbody`
rows, including that first row if it lies there. -/
theorem claim_C9_header_consumption {t : Table} {r : HRow} {rs : List HRow}
    (hth : t.thead = none) (hall : allTrs t = r :: rs) (hh : r.any (·.isTh) = true) :
    headerCells t = some r ∧
    (t.tbody = none → bodyRowsOf t (headerCells t) = rs) ∧
    (∀ trs, t.tbody = some trs → bodyRowsOf t (headerCells t) = trs) :=
  headerCells_promoted hth hall hh

/-- Witness for the amended C9 at the concrete table. -/
theorem claim_C9_header_consumption_witness :
    headerCells tC9 = some [⟨true, "电信 1.2.3.4"⟩] ∧
      bodyRowsOf tC9 (headerCells tC9) = [[⟨true, "电信 1.2.3.4"⟩]] := by
  have h := @claim_C9_header_consumption tC9 [⟨true, "电信 1.2.3.4"⟩] [] rfl (by decide)
    (by decide)
  exact ⟨h.1, h.2.2 [[⟨true, "电信 1.2.3.4"⟩]] rfl⟩

/-- C10: the IP pattern requires a word boundary on each side, so every
match reported by the scanner occurs flanked by non-word characters or the
text's edges; in particular a quad glued to a word character on either side
is not extracted, and a quad embedded in a longer digit run contributes
nothing (at most a different, longer match is reported). -/
theorem claim_C10_word_boundaries :
    (∀ s m : List Char, m ∈ ipFindAll s →
      ∃ pre post, s = pre ++ m ++ post ∧
        (∀ c, pre.getLast? = some c → isWordChar c = false) ∧
        (∀ c, post.head? = some c → isWordChar c = false)) ∧
    ipFindAll "x1.2.3.4".toList = [] ∧
    ipFindAll "1.2.3.4x".toList = [] ∧
    ipFindAll "11.2.3.44".toList = ["11.2.3.44".toList] ∧
    "1.2.3.4".toList ∉ ipFindAll "11.2.3.44".toList := by
  refine ⟨?_, by decide, by decide, by decide, by decide⟩
  intro s m h
  simp only [ipFindAll] at h
  obtain ⟨pre, post, hdec, _, hpreL, hpost, _⟩ := ipScan_sound _ none s m h
  exact ⟨pre, post, hdec, hpreL, hpost⟩

/-- Witness for C10 at a concrete scan. -/
theorem claim_C10_word_boundaries_witness :
    ∃ pre post, "a 1.2.3.4 b".toList = pre ++ "1.2.3.4".toList ++ post ∧
      (∀ c, pre.getLast? = some c → isWordChar c = false) ∧
      (∀ c, post.head? = some c → isWordChar c = false) :=
  claim_C10_word_boundaries.1 "a 1.2.3.4 b".toList "1.2.3.4".toList (by decide)

end Dxip
